import Mathlib

/-!
# Verification of the pi-web transport / session core

Shallow embedding of the pi-web repository's core logic:

* `PiWeb.Framing` — the Bridge's stdout line-framing
  (`PiSession.handleStdout`, `src/packages/backend/src/session.ts`).
* `PiWeb.Session` — `PiSession.close`, `PiSession.spawn` lifecycle
  (`src/packages/backend/src/session.ts`).
* `PiWeb.Server` — `handleClientMessage` dispatch
  (`src/packages/backend/src/server.ts`).
* `PiWeb.Rpc` — the frontend `RpcClient` (`src/packages/frontend/src/rpc/client.ts`):
  message classification (`handleMessage`), the pending-command lifecycle
  (`command`/`handleMessage`/timeout/`disconnect`), and `connectSession`.
* `PiWeb.Tree` — the session-log tree builder (`getSessionTree` in
  the session-utils module, provided as `src/unnamed/part_000`).

Strings from the worker are modelled as `List Char`; JSON parsing of a line is
kept abstract as a function `parse : List Char → Option M`, since the framing
layer treats the parser as a black box.
-/

namespace PiWeb

/-- `l.getLastD d` is a member of `l` when `l` is non-empty. -/
theorem getLastD_mem {α : Type _} (l : List α) (d : α) (h : l ≠ []) :
    l.getLastD d ∈ l := by
  induction l with
  | nil => exact absurd rfl h
  | cons a l ih =>
    cases l with
    | nil => simp [List.getLastD]
    | cons b l' =>
      have := ih (by simp)
      simp only [List.getLastD] at this ⊢
      exact List.mem_cons_of_mem a this

/-- The default value of `getLastD` is irrelevant on a non-empty list. -/
theorem getLastD_ne_nil_eq {α : Type _} (l : List α) (d d' : α) (h : l ≠ []) :
    l.getLastD d = l.getLastD d' := by
  cases l with
  | nil => exact absurd rfl h
  | cons a t => rw [List.getLastD_cons, List.getLastD_cons]

/-- `getLastD` of an append with non-empty right part. -/
theorem getLastD_append_right {α : Type _} (l₁ l₂ : List α) (d : α) (h : l₂ ≠ []) :
    (l₁ ++ l₂).getLastD d = l₂.getLastD d := by
  induction l₁ generalizing d with
  | nil => rfl
  | cons a l ih =>
    rw [List.cons_append, List.getLastD_cons, ih a, getLastD_ne_nil_eq l₂ a d h]

/-- `dropLast` of an append with non-empty right part. -/
theorem dropLast_append_right {α : Type _} (l₁ l₂ : List α) (h : l₂ ≠ []) :
    (l₁ ++ l₂).dropLast = l₁ ++ l₂.dropLast := by
  induction l₁ with
  | nil => rfl
  | cons a l ih =>
    cases hl : l ++ l₂ with
    | nil =>
      rcases List.append_eq_nil.mp hl with ⟨_, h2⟩
      exact absurd h2 h
    | cons b m =>
      simp only [List.cons_append, hl, List.dropLast]
      rw [← hl, ih]

end PiWeb

namespace PiWeb.Framing

/-- JavaScript `str.split("\n")` on the character list: always returns a
non-empty list of newline-free fragments; `splitNl [] = [[]]` just as
`"".split("\n") = [""]`. -/
def splitNl : List Char → List (List Char)
  | [] => [[]]
  | c :: cs =>
    match splitNl cs with
    | [] => [[]]
    | l :: ls => if c = '\n' then [] :: l :: ls else (c :: l) :: ls

/-- Characters treated as whitespace by JavaScript `String.prototype.trim`
(the ones that can occur in a protocol line). -/
def isWsChar (c : Char) : Bool :=
  c = ' ' || c = '\t' || c = '\n' || c = '\r' || c = '\x0b' || c = '\x0c'

/-- `line.trim()` is truthy iff the line has a non-whitespace character. -/
def hasNonWs (l : List Char) : Bool := l.any (fun c => !isWsChar c)

/-- One iteration of the `for (const line of lines)` loop body of
`PiSession.handleStdout`: a blank line is skipped, otherwise the line is
parsed; a parse failure is dropped (diagnostic only). -/
def emitLine {M : Type} (parse : List Char → Option M) (l : List Char) : Option M :=
  if hasNonWs l then parse l else none

/-- `PiSession.handleStdout`: append the chunk to the buffer, split on
newline, keep the final (possibly incomplete) fragment as the new buffer,
and dispatch every complete non-blank line that parses.  Returns the new
buffer and the messages delivered to `onMessage`, in order. -/
def handleStdout {M : Type} (parse : List Char → Option M)
    (buffer data : List Char) : List Char × List M :=
  let lines := splitNl (buffer ++ data)
  (lines.getLastD [], (lines.dropLast).filterMap (emitLine parse))

/-- Feed a sequence of chunks to `handleStdout` one at a time, accumulating
the delivered messages. -/
def processChunks {M : Type} (parse : List Char → Option M)
    (st : List Char × List M) : List (List Char) → List Char × List M
  | [] => st
  | ck :: cks =>
    let r := handleStdout parse st.1 ck
    processChunks parse (r.1, st.2 ++ r.2) cks

/-- The complete lines of a byte stream (everything before the last fragment). -/
def completeLines (s : List Char) : List (List Char) := (splitNl s).dropLast

/-- The messages obtained by parsing the whole output as complete lines. -/
def linesMessages {M : Type} (parse : List Char → Option M) (s : List Char) : List M :=
  (completeLines s).filterMap (emitLine parse)

theorem splitNl_ne_nil (s : List Char) : splitNl s ≠ [] := by
  cases s with
  | nil => simp [splitNl]
  | cons c cs =>
    simp only [splitNl]
    cases h : splitNl cs with
    | nil => simp
    | cons l ls =>
      by_cases hc : c = '\n' <;> simp [hc]

/-- Prepend a fragment to the head of a split result. -/
def consHead (p : List Char) : List (List Char) → List (List Char)
  | [] => [p]
  | l :: ls => (p ++ l) :: ls

theorem consHead_ne_nil (p : List Char) (ls : List (List Char)) : consHead p ls ≠ [] := by
  cases ls <;> simp [consHead]

theorem splitNl_append (x y : List Char) :
    splitNl (x ++ y) =
      (splitNl x).dropLast ++ consHead ((splitNl x).getLastD []) (splitNl y) := by
  induction x with
  | nil =>
    show splitNl y = ([[]] : List (List Char)).dropLast ++
      consHead (([[]] : List (List Char)).getLastD []) (splitNl y)
    cases h : splitNl y with
    | nil => exact absurd h (splitNl_ne_nil y)
    | cons m ms => simp [consHead]
  | cons c cs ih =>
    simp only [List.cons_append, splitNl]
    rw [show cs.append y = cs ++ y from rfl, ih]
    cases h : splitNl cs with
    | nil => exact absurd h (splitNl_ne_nil cs)
    | cons l ls =>
      by_cases hc : c = '\n'
      · subst hc
        cases hy : splitNl y with
        | nil => exact absurd hy (splitNl_ne_nil y)
        | cons m ms =>
          cases ls with
          | nil => simp [consHead, List.getLastD]
          | cons l2 ls2 => simp [consHead, List.getLastD]
      · cases hy : splitNl y with
        | nil => exact absurd hy (splitNl_ne_nil y)
        | cons m ms =>
          cases ls with
          | nil => simp [consHead, hc, List.getLastD]
          | cons l2 ls2 => simp [consHead, hc, List.getLastD]

theorem splitNl_mem_no_nl (s : List Char) :
    ∀ l ∈ splitNl s, '\n' ∉ l := by
  induction s with
  | nil =>
    intro l hl
    have : l = [] := by simpa [splitNl] using hl
    simp [this]
  | cons c cs ih =>
    intro l hl
    simp only [splitNl] at hl
    cases h : splitNl cs with
    | nil => exact absurd h (splitNl_ne_nil cs)
    | cons m ms =>
      rw [h] at hl
      by_cases hc : c = '\n'
      · simp only [hc, if_pos rfl] at hl
        rcases List.mem_cons.mp hl with h1 | h2
        · simp [h1]
        · exact ih l (h ▸ h2)
      · simp only [if_neg hc] at hl
        rcases List.mem_cons.mp hl with h1 | h2
        · subst h1
          intro hmem
          rcases List.mem_cons.mp hmem with h3 | h4
          · exact hc h3.symm
          · exact ih m (h ▸ List.mem_cons_self m ms) h4
        · exact ih l (h ▸ List.mem_cons_of_mem m h2)

theorem splitNl_of_no_nl (s : List Char) (h : '\n' ∉ s) : splitNl s = [s] := by
  induction s with
  | nil => rfl
  | cons c cs ih =>
    have hc : c ≠ '\n' := fun hh => h (hh ▸ List.mem_cons_self c cs)
    have hcs : '\n' ∉ cs := fun hh => h (List.mem_cons_of_mem c hh)
    simp only [splitNl, ih hcs]
    simp [hc]

theorem getLastD_splitNl_no_nl (s : List Char) :
    '\n' ∉ (splitNl s).getLastD [] := by
  exact splitNl_mem_no_nl s _ (getLastD_mem _ _ (splitNl_ne_nil s))

/-- Processing `a ++ b` in one chunk is the same as processing `a` then `b`. -/
theorem handleStdout_append {M : Type} (parse : List Char → Option M)
    (buffer a b : List Char) :
    handleStdout parse buffer (a ++ b) =
      ((handleStdout parse (handleStdout parse buffer a).1 b).1,
        (handleStdout parse buffer a).2 ++
          (handleStdout parse (handleStdout parse buffer a).1 b).2) := by
  simp only [handleStdout]
  have h1 : buffer ++ (a ++ b) = (buffer ++ a) ++ b := by simp
  rw [h1, splitNl_append (buffer ++ a) b]
  have hnl : '\n' ∉ (splitNl (buffer ++ a)).getLastD [] :=
    getLastD_splitNl_no_nl (buffer ++ a)
  have h2 : splitNl ((splitNl (buffer ++ a)).getLastD [] ++ b) =
      consHead ((splitNl (buffer ++ a)).getLastD []) (splitNl b) := by
    rw [splitNl_append _ b, splitNl_of_no_nl _ hnl]
    rfl
  rw [h2]
  have hcne : consHead ((splitNl (buffer ++ a)).getLastD []) (splitNl b) ≠ [] :=
    consHead_ne_nil _ _
  refine Prod.ext ?_ ?_
  · exact getLastD_append_right _ _ _ hcne
  · rw [dropLast_append_right _ _ hcne, List.filterMap_append]

/-- Chunked processing, starting from a newline-free buffer, equals one-shot
processing of the concatenation. -/
theorem processChunks_eq_handleStdout {M : Type} (parse : List Char → Option M)
    (cks : List (List Char)) :
    ∀ (buffer : List Char), '\n' ∉ buffer → ∀ (acc : List M),
      processChunks parse (buffer, acc) cks =
        ((handleStdout parse buffer cks.flatten).1,
          acc ++ (handleStdout parse buffer cks.flatten).2) := by
  induction cks with
  | nil =>
    intro buffer hb acc
    rw [show (([] : List (List Char)).flatten) = [] from rfl]
    simp only [processChunks, handleStdout, List.append_nil]
    rw [splitNl_of_no_nl buffer hb]
    simp [List.getLastD]
  | cons ck cks ih =>
    intro buffer hb acc
    rw [show ((ck :: cks).flatten) = ck ++ cks.flatten from rfl]
    simp only [processChunks]
    rw [handleStdout_append parse buffer ck cks.flatten]
    have hb' : '\n' ∉ (handleStdout parse buffer ck).1 :=
      getLastD_splitNl_no_nl (buffer ++ ck)
    rw [ih _ hb']
    simp

/-- **C1.** For every byte stream produced by the worker and every way of
splitting it into chunks, feeding the chunks one by one through
`PiSession.handleStdout` (starting from the empty buffer) delivers to
`onMessage` exactly the sequence of messages obtained by parsing the whole
output as complete lines, in the same order (and the retained buffer is
exactly the trailing incomplete fragment either way). -/
theorem bridge_framing_chunk_invariant {M : Type} (parse : List Char → Option M)
    (chunks : List (List Char)) :
    (processChunks parse ([], []) chunks).2 = linesMessages parse chunks.flatten ∧
      processChunks parse ([], []) chunks = handleStdout parse [] chunks.flatten := by
  have h := processChunks_eq_handleStdout parse chunks [] (by simp) []
  constructor
  · rw [h]
    simp [handleStdout, linesMessages, completeLines]
  · rw [h]
    simp

end PiWeb.Framing

namespace PiWeb.Session

/-- Observable state of the worker process handle (`ChildProcess`). -/
structure Proc where
  exitCode : Option Int
  killed : Bool
  stdinWritable : Bool
  deriving Repr, DecidableEq

/-- The `PiSession` fields relevant to lifecycle management: the process
handle (or `none` before spawn / after failure) and the idempotent-close
guard `closed`. -/
structure PiState where
  process : Option Proc
  closed : Bool
  deriving Repr, DecidableEq

/-- `PiSession.isActive`: not closed, a process handle exists, and the
process has not exited. -/
def isActive (s : PiState) : Bool :=
  !s.closed &&
    (match s.process with
     | none => false
     | some p => p.exitCode == none)

/-- Externally visible effects of one `PiSession.close()` call. -/
structure CloseEffects where
  stdinEnded : Bool
  killTimerArmed : Bool
  signals : List String
  deriving Repr, DecidableEq

def noCloseEffects : CloseEffects := ⟨false, false, []⟩

/-- `PiSession.close()`: a no-op when the `closed` guard is set; otherwise
sets the guard, ends stdin, arms the 1000 ms SIGKILL fallback timer and sends
SIGTERM if the process was not already killed.  The function is total: it
never throws. -/
def close (s : PiState) : PiState × CloseEffects :=
  if s.closed then (s, noCloseEffects)
  else
    let s1 : PiState := { s with closed := true }
    match s.process with
    | none => (s1, noCloseEffects)
    | some p =>
      if p.killed then
        ({ s1 with process := some p }, ⟨true, true, []⟩)
      else
        ({ s1 with process := some { p with killed := true } },
          ⟨true, true, ["SIGTERM"]⟩)

/-- **C8.** `close()` is idempotent: whatever the starting state, a second
call right after a first one changes nothing, sends no signal, arms no
timer, touches no stream — and, the embedding being a total function, throws
nothing. -/
theorem close_of_closed (s : PiState) (h : s.closed = true) :
    close s = (s, noCloseEffects) := by
  simp [close, h]

theorem close_sets_guard (s : PiState) : (close s).1.closed = true := by
  by_cases h : s.closed
  · simp [close, h]
  · simp only [close, if_neg h]
    cases hp : s.process with
    | none => simp
    | some p => by_cases hk : p.killed <;> simp [hk]

theorem close_idempotent (s : PiState) :
    close (close s).1 = ((close s).1, noCloseEffects) :=
  close_of_closed _ (close_sets_guard s)

/-- Message attached to the exception thrown by `spawn` when the process has
already exited when the 100 ms grace interval elapses (wrapped by the outer
`catch` into a launch-failure error). -/
def spawnFailMsg (code : Int) : String :=
  "Failed to spawn pi: pi process exited immediately with code " ++ toString code

/-- Result of one run of `PiSession.spawn()`, given what the process does
during the 100 ms startup grace interval.  `earlyExit = some code` means the
runtime fired the `close` event with exit status `code` (`none` inside the
option stands for a signal death with `exitCode` left `null`) before the
grace timer elapsed.  Returns the session state after the grace check, the
list of `onClose` invocations, and the outcome of the `spawn()` promise. -/
def spawnRun (earlyExit : Option (Option Int)) :
    PiState × List (Option Int) × Except String Unit :=
  -- state right after `spawn(...)` succeeds and the listeners are installed
  let s0 : PiState := { process := some ⟨none, false, true⟩, closed := false }
  match earlyExit with
  | none => (s0, [], Except.ok ())
  | some code =>
    -- the `close` event handler: sets the guard and reports asynchronously
    let onCloseCalls := if s0.closed then [] else [code]
    let s1 : PiState := { s0 with
      closed := true,
      process := some ⟨code, false, false⟩ }
    -- grace check: `this.process.exitCode !== null` rejects the spawn
    match code with
    | some c => (s1, onCloseCalls, Except.error (spawnFailMsg c))
    | none => (s1, onCloseCalls, Except.ok ())

/-- **C10.** If the worker exits with status `c` inside the 100 ms grace
interval, `spawn()` both rejects with the launch-failure error and still
reports the exit through `onClose c` — the rejection does not suppress the
asynchronous close notification. -/
theorem spawn_early_exit_rejects_and_notifies (c : Int) :
    (spawnRun (some (some c))).2.2 = Except.error (spawnFailMsg c) ∧
      (spawnRun (some (some c))).2.1 = [some c] := by
  constructor <;> rfl

end PiWeb.Session

namespace PiWeb.Server

open PiWeb.Session

/-- A client→gateway message as `handleClientMessage` sees it: the `type`
discriminator, the optional `cwd` field of a connect message, and the
optional correlation id. -/
structure CMsg where
  type : String
  cwd : Option String
  id : Option String
  deriving Repr, DecidableEq

/-- The per-channel record (`ClientConnection`): owned session and the
working-context path, both `null` until connect. -/
structure ClientConn where
  session : Option PiState
  cwd : Option String
  deriving Repr, DecidableEq

/-- Messages the server can send back on the channel. -/
inductive SrvOut where
  | errorMsg (message : String)
  | connectedMsg
  | disconnectedMsg (reason : String)
  | responseMsg (command : String) (success : Bool) (id : Option String)
  deriving Repr, DecidableEq

/-- Environment of one `handleClientMessage` call: server options and the
host environment consulted for `cwd` expansion, plus the outcomes of the
effectful collaborators (worker spawn, gateway-local command handlers),
which this embedding keeps abstract. -/
structure SrvEnv where
  defaultCwd : Option String
  processCwd : String
  home : String
  spawnOk : Bool
  localResult : String → Option String → SrvOut

/-- Result of one `handleClientMessage` call. -/
structure SrvRes where
  client : ClientConn
  sent : List SrvOut
  forwarded : List CMsg
  spawned : Bool
  deriving Repr

/-- JavaScript truthiness chain `message.cwd || options.defaultCwd ||
process.cwd()` (an empty string is falsy). -/
def cwdChain (msgCwd defCwd : Option String) (processCwd : String) : String :=
  match msgCwd with
  | some s => if s ≠ "" then s else
      match defCwd with
      | some d => if d ≠ "" then d else processCwd
      | none => processCwd
  | none =>
      match defCwd with
      | some d => if d ≠ "" then d else processCwd
      | none => processCwd

/-- `cwd.replace("~", home)` applied after a `startsWith("~")` check: replace
the first occurrence, i.e. the leading tilde. -/
def expandHome (home cwd : String) : String :=
  if cwd.startsWith "~" then home ++ cwd.drop 1 else cwd

/-- `client.session?.isActive()` -/
def sessionActive (c : ClientConn) : Bool :=
  match c.session with
  | none => false
  | some s => isActive s

def notConnectedError : String :=
  "Not connected to a session. Send a \x27connect\x27 message first."

def alreadyConnectedError : String := "Already connected to a session"

/-- Gateway-local command discriminators answered without the worker. -/
def isLocalCommand (t : String) : Bool :=
  t == "list_sessions" || t == "get_session_tree" || t == "delete_session"

/-- `handleClientMessage` (second revision of `server.ts`, the one with the
gateway-local commands): `connect` is rejected when a session is already
active, otherwise a worker is spawned (outcome abstracted by `env.spawnOk`);
every other message requires an active session; gateway-local commands are
answered from log data (results abstracted by `env.localResult`); everything
else is forwarded verbatim to the Bridge. -/
def handleClientMessage (env : SrvEnv) (client : ClientConn) (message : CMsg) :
    SrvRes :=
  if message.type = "connect" then
    if sessionActive client then
      ⟨client, [SrvOut.errorMsg alreadyConnectedError], [], false⟩
    else
      let cwd := expandHome env.home (cwdChain message.cwd env.defaultCwd env.processCwd)
      let client1 : ClientConn := { client with cwd := some cwd }
      if env.spawnOk then
        ⟨{ client1 with session := some ⟨some ⟨none, false, true⟩, false⟩ },
          [SrvOut.connectedMsg], [], true⟩
      else
        ⟨client1, [SrvOut.errorMsg "Failed to spawn pi"], [], true⟩
  else if !sessionActive client then
    ⟨client, [SrvOut.errorMsg notConnectedError], [], false⟩
  else if isLocalCommand message.type then
    ⟨client, [env.localResult message.type message.id], [], false⟩
  else
    ⟨client, [], [message], false⟩

/-- **C6.** On a channel without an active Bridge, any message that is not
`connect` draws exactly one error reply telling the caller it is not
connected, forwards nothing to any worker, spawns nothing, and leaves the
channel record (session reference and working-context path) unchanged. -/
theorem not_connected_rejects (env : SrvEnv) (client : ClientConn) (message : CMsg)
    (htype : message.type ≠ "connect") (hinactive : sessionActive client = false) :
    handleClientMessage env client message =
      ⟨client, [SrvOut.errorMsg notConnectedError], [], false⟩ := by
  simp [handleClientMessage, htype, hinactive]

theorem not_connected_rejects_witness :
    (⟨"prompt", none, some "cmd_1"⟩ : CMsg).type ≠ "connect" ∧
      sessionActive ⟨none, none⟩ = false ∧
      handleClientMessage ⟨none, "/srv", "/home/u", true, fun t i => SrvOut.responseMsg t true i⟩
          ⟨none, none⟩ ⟨"prompt", none, some "cmd_1"⟩ =
        ⟨⟨none, none⟩, [SrvOut.errorMsg notConnectedError], [], false⟩ :=
  ⟨by decide, by decide,
    not_connected_rejects _ _ _ (by decide) (by decide)⟩

/-- **C7.** A `connect` on a channel that already has an active Bridge is
rejected with an error and has no side effects: no spawn, no forwarding, and
the channel record — existing Bridge included — is untouched. -/
theorem connect_while_active_rejected (env : SrvEnv) (client : ClientConn)
    (message : CMsg) (htype : message.type = "connect")
    (hactive : sessionActive client = true) :
    handleClientMessage env client message =
      ⟨client, [SrvOut.errorMsg alreadyConnectedError], [], false⟩ := by
  simp [handleClientMessage, htype, hactive]

theorem connect_while_active_rejected_witness :
    (⟨"connect", some "/tmp", none⟩ : CMsg).type = "connect" ∧
      sessionActive ⟨some ⟨some ⟨none, false, true⟩, false⟩, some "/tmp"⟩ = true ∧
      handleClientMessage ⟨none, "/srv", "/home/u", true, fun t i => SrvOut.responseMsg t true i⟩
          ⟨some ⟨some ⟨none, false, true⟩, false⟩, some "/tmp"⟩ ⟨"connect", some "/tmp", none⟩ =
        ⟨⟨some ⟨some ⟨none, false, true⟩, false⟩, some "/tmp"⟩,
          [SrvOut.errorMsg alreadyConnectedError], [], false⟩ :=
  ⟨by decide, by decide,
    connect_while_active_rejected _ _ _ (by decide) (by decide)⟩

end PiWeb.Server

namespace PiWeb.Rpc

/-- A parsed server→client message as `RpcClient.handleMessage` inspects it:
the `type` discriminator and the correlation id, when the key is present. -/
structure WsMsg where
  type : String
  id : Option String
  deriving Repr, DecidableEq

/-- JavaScript truthiness of `"id" in message && message.id`: the key must be
present and not the empty string. -/
def idTruthy (m : WsMsg) : Bool :=
  match m.id with
  | none => false
  | some s => s != ""

/-- The three connection-lifecycle discriminators consumed internally. -/
def isLifecycleType (t : String) : Bool :=
  t == "connected" || t == "disconnected" || t == "error"

/-- A `response` message carrying a truthy id (the first branch's guard). -/
def respWithId (m : WsMsg) : Bool := m.type == "response" && idTruthy m

/-- Everything one call of `RpcClient.handleMessage` does that is observable:
which pending command it settled, whether the message reached `onEvent`, and
the updated pending table / `sessionConnected` flag. -/
structure HandleResult where
  settled : Option String
  forwardedEvent : Bool
  pending : List String
  sessionConnected : Bool
  deriving Repr, DecidableEq

/-- `RpcClient.handleMessage`, after JSON parsing: a `response` with a truthy
id settles the matching pending entry — and is consumed silently when there
is none; `connected`/`disconnected`/`error` is consumed internally
(`disconnected` clears `sessionConnected`); everything else is handed to
`onEvent`. -/
def handleMessage (pending : List String) (sessionConnected : Bool)
    (m : WsMsg) : HandleResult :=
  if respWithId m then
    match m.id with
    | some i =>
      if i ∈ pending then
        ⟨some i, false, pending.erase i, sessionConnected⟩
      else
        ⟨none, false, pending, sessionConnected⟩
    | none => ⟨none, false, pending, sessionConnected⟩
  else if isLifecycleType m.type then
    ⟨none, false, pending,
      if m.type == "disconnected" then false else sessionConnected⟩
  else
    ⟨none, true, pending, sessionConnected⟩

/-- Whether a message is a response whose id matches a pending command. -/
def pendingMatch (pending : List String) (m : WsMsg) : Bool :=
  respWithId m &&
    (match m.id with
     | some i => pending.contains i
     | none => false)

/-- **C5 (counterexample).** The claim sorts every message that is neither a
pending-matching response nor a lifecycle message into the forwarded bucket.
But a `response` bearing an id that matches no pending command is consumed
silently: it settles nothing and is not forwarded to `onEvent`. -/
theorem handle_message_unmatched_response_dropped :
    isLifecycleType (WsMsg.mk "response" (some "cmd_9")).type = false ∧
      (handleMessage [] true ⟨"response", some "cmd_9"⟩).settled = none ∧
      (handleMessage [] true ⟨"response", some "cmd_9"⟩).forwardedEvent = false := by
  decide

/-- **C5 (amended).** The correct classification of
`RpcClient.handleMessage`: a message is forwarded to `onEvent` iff it is
neither a response-with-truthy-id nor a lifecycle message (an unmatched
response is dropped, not forwarded); exactly the responses matching a
pending id settle that entry and remove it from the table; `disconnected`
clears the session flag. -/
theorem handle_message_classification (pending : List String)
    (sessionConnected : Bool) (m : WsMsg) :
    (handleMessage pending sessionConnected m).forwardedEvent =
        (!respWithId m && !isLifecycleType m.type) ∧
      (handleMessage pending sessionConnected m).settled =
        (if pendingMatch pending m then m.id else none) ∧
      (handleMessage pending sessionConnected m).pending =
        (if pendingMatch pending m then pending.erase (m.id.getD "") else pending) ∧
      (handleMessage pending sessionConnected m).sessionConnected =
        (if !respWithId m && isLifecycleType m.type && m.type == "disconnected"
          then false else sessionConnected) := by
  cases m with
  | mk t i =>
    cases i with
    | none =>
      by_cases hr : respWithId ⟨t, none⟩
      · simp [respWithId, idTruthy] at hr
      · by_cases hl : isLifecycleType t <;>
          by_cases hd : t == "disconnected" <;>
          simp_all [handleMessage, pendingMatch, respWithId, idTruthy]
    | some s =>
      by_cases hr : respWithId ⟨t, some s⟩
      · have hr' := hr
        simp only [respWithId, Bool.and_eq_true, beq_iff_eq] at hr'
        obtain ⟨ht, hid⟩ := hr'
        subst ht
        have hlife : isLifecycleType "response" = false := by decide
        by_cases hmem : s ∈ pending <;>
          simp_all [handleMessage, pendingMatch, respWithId]
      · by_cases hl : isLifecycleType t <;>
          by_cases hd : t == "disconnected" <;>
          simp_all [handleMessage, pendingMatch]

end PiWeb.Rpc

namespace PiWeb.Rpc

/-- An event delivered to the `connectSession` machinery after the `connect`
message has been sent: either a server message of some type arriving at the
temporary one-shot listener, or the 10 s connection timer firing. -/
inductive CsEvent where
  | message (type : String)
  | timerFire
  deriving Repr, DecidableEq

/-- State of one `connectSession` call: whether the 10 s timer is still
armed, whether the temporary listener is still installed, and how the
returned promise has settled (`some true` resolved, `some false` rejected). -/
structure CsState where
  timerArmed : Bool
  listenerOn : Bool
  settled : Option Bool
  deriving Repr, DecidableEq

/-- State right after the synchronous body of the `connectSession` promise
executor: the one-shot `messageHandler` is installed, the 10 s timeout is
armed, and the `connect` message has been sent. -/
def csAfterExecutor : CsState := ⟨true, true, none⟩

/-- The `Promise.resolve().then(cleanup)` line: `cleanup` runs
`clearTimeout(timeout)`.  Being scheduled on an already-resolved promise, it
runs as a microtask — before any message event or timer callback (which are
macrotasks) can possibly run. -/
def csCleanupMicrotask (s : CsState) : CsState := { s with timerArmed := false }

/-- The earliest state at which external events can be observed: the
executor has run and the immediately-scheduled cleanup microtask has already
disarmed the connection timeout. -/
def csStart : CsState := csCleanupMicrotask csAfterExecutor

/-- One macrotask step of the `connectSession` machinery: the one-shot
listener resolves on `connected`, rejects on `error`, ignores everything
else; a timer that actually fires rejects with the connection-timeout
error. -/
def csStep (s : CsState) : CsEvent → CsState
  | CsEvent.message t =>
    if s.settled.isNone && s.listenerOn then
      if t == "connected" then { s with settled := some true, listenerOn := false }
      else if t == "error" then { s with settled := some false, listenerOn := false }
      else s
    else s
  | CsEvent.timerFire => ⟨false, false, some false⟩

def csRun (s : CsState) : List CsEvent → CsState
  | [] => s
  | e :: es => csRun (csStep s e) es

/-- A timer callback can only run while the timer is armed. -/
def csValidB (s : CsState) : List CsEvent → Bool
  | [] => true
  | e :: es =>
    (match e with
     | CsEvent.timerFire => s.timerArmed
     | CsEvent.message _ => true) && csValidB (csStep s e) es

theorem csRun_no_reply_unsettled (evs : List CsEvent) :
    ∀ s : CsState, s.timerArmed = false → s.settled = none →
      csValidB s evs = true →
      (∀ e ∈ evs, e ≠ CsEvent.message "connected" ∧ e ≠ CsEvent.message "error") →
      (csRun s evs).settled = none := by
  induction evs with
  | nil => intro s _ hs _ _; exact hs
  | cons e es ih =>
    intro s harm hs hv hno
    have hv' := hv
    simp only [csValidB, Bool.and_eq_true] at hv'
    cases e with
    | timerFire =>
      exact absurd hv'.1 (by simp [harm])
    | message t =>
      have ht1 : t ≠ "connected" := by
        intro h; exact (hno _ (List.mem_cons_self _ _)).1 (by rw [h])
      have ht2 : t ≠ "error" := by
        intro h; exact (hno _ (List.mem_cons_self _ _)).2 (by rw [h])
      have hstep : csStep s (CsEvent.message t) = s := by
        simp [csStep, ht1, ht2]
      simp only [csRun, hstep]
      exact ih s harm hs (by
        have := hv'.2
        rwa [hstep] at this)
        (fun x hx => hno x (List.mem_cons_of_mem _ hx))

/-- **C4 (refutes the claim; the code is the bug).** `connectSession`
schedules its `cleanup` (`clearTimeout`) on `Promise.resolve()`, so the 10 s
connection timeout is disarmed in a microtask immediately after the
`connect` message is sent — before any reply or the timer itself can run.
Consequently, along every subsequent event sequence in which neither a
`connected` nor an `error` message arrives, the promise stays unsettled
forever: the claimed connection-timeout rejection never happens. -/
theorem connect_session_never_times_out (evs : List CsEvent)
    (hv : csValidB csStart evs = true)
    (hno : ∀ e ∈ evs, e ≠ CsEvent.message "connected" ∧ e ≠ CsEvent.message "error") :
    (csRun csStart evs).settled = none ∧ csStart.timerArmed = false :=
  ⟨csRun_no_reply_unsettled evs csStart rfl rfl hv hno, rfl⟩

theorem connect_session_never_times_out_witness :
    csValidB csStart [CsEvent.message "agent_start", CsEvent.message "response"] = true ∧
      (csRun csStart [CsEvent.message "agent_start", CsEvent.message "response"]).settled
        = none :=
  ⟨by decide,
    (connect_session_never_times_out [CsEvent.message "agent_start", CsEvent.message "response"]
      (by decide) (by decide)).1⟩

end PiWeb.Rpc

namespace PiWeb.Rpc

/-- Little-endian decimal digits of `n`, by structural fuel recursion (the
fuel `n` itself always suffices), so that concrete ids evaluate by `decide`. -/
def decDigitsAux : Nat → Nat → List Nat
  | 0, _ => []
  | _ + 1, 0 => []
  | f + 1, n + 1 => ((n + 1) % 10) :: decDigitsAux f ((n + 1) / 10)

/-- Little-endian decimal digits of `n` (empty for `0`; the id counter
starts at 1). -/
def decDigits (n : Nat) : List Nat := decDigitsAux n n

/-- The command id generated by `RpcClient.command` for counter value `n`:
the template literal `cmd_` followed by the decimal rendering of `n`. -/
def mkCmdId (n : Nat) : String :=
  List.asString ('c' :: 'm' :: 'd' :: '_' :: ((decDigits n).map Nat.digitChar).reverse)

theorem decDigitsAux_ofDigits :
    ∀ f n, n ≤ f → Nat.ofDigits 10 (decDigitsAux f n) = n := by
  intro f
  induction f with
  | zero =>
    intro n hn
    interval_cases n
    simp [decDigitsAux, Nat.ofDigits]
  | succ f ih =>
    intro n hn
    cases n with
    | zero => simp [decDigitsAux, Nat.ofDigits]
    | succ m =>
      have hdiv : (m + 1) / 10 ≤ f := by
        have h1 : (m + 1) / 10 < m + 1 := Nat.div_lt_self (Nat.succ_pos m) (by norm_num)
        omega
      simp only [decDigitsAux, Nat.ofDigits_cons, ih _ hdiv]
      omega

theorem decDigits_injective {m n : Nat} (h : decDigits m = decDigits n) : m = n := by
  have hm := decDigitsAux_ofDigits m m le_rfl
  have hn := decDigitsAux_ofDigits n n le_rfl
  have h' : Nat.ofDigits 10 (decDigitsAux m m) = Nat.ofDigits 10 (decDigitsAux n n) :=
    congrArg (Nat.ofDigits 10) h
  rw [h', hn] at hm
  exact hm.symm

theorem decDigitsAux_lt_ten :
    ∀ f n d, d ∈ decDigitsAux f n → d < 10 := by
  intro f
  induction f with
  | zero => intro n d hd; simp [decDigitsAux] at hd
  | succ f ih =>
    intro n d hd
    cases n with
    | zero => simp [decDigitsAux] at hd
    | succ m =>
      simp only [decDigitsAux, List.mem_cons] at hd
      rcases hd with h1 | h2
      · subst h1; exact Nat.mod_lt _ (by norm_num)
      · exact ih _ _ h2

theorem digitChar_inj_lt :
    ∀ a, a < 10 → ∀ b, b < 10 → Nat.digitChar a = Nat.digitChar b → a = b := by
  decide

theorem map_digitChar_inj :
    ∀ l₁ l₂ : List Nat, (∀ x ∈ l₁, x < 10) → (∀ x ∈ l₂, x < 10) →
      l₁.map Nat.digitChar = l₂.map Nat.digitChar → l₁ = l₂ := by
  intro l₁
  induction l₁ with
  | nil =>
    intro l₂ _ _ h
    cases l₂ with
    | nil => rfl
    | cons b t => simp at h
  | cons a t ih =>
    intro l₂ h₁ h₂ h
    cases l₂ with
    | nil => simp at h
    | cons b t₂ =>
      simp only [List.map_cons, List.cons.injEq] at h
      have ha : a = b :=
        digitChar_inj_lt a (h₁ a (List.mem_cons_self _ _)) b
          (h₂ b (List.mem_cons_self _ _)) h.1
      have ht : t = t₂ :=
        ih t₂ (fun x hx => h₁ x (List.mem_cons_of_mem _ hx))
          (fun x hx => h₂ x (List.mem_cons_of_mem _ hx)) h.2
      rw [ha, ht]

theorem mkCmdId_injective {m n : Nat} (h : mkCmdId m = mkCmdId n) : m = n := by
  have hd := congrArg String.data h
  simp only [mkCmdId, List.asString] at hd
  simp only [List.cons.injEq, true_and] at hd
  have hrev := List.reverse_injective hd
  have hmap := map_digitChar_inj (decDigits m) (decDigits n)
    (fun x hx => decDigitsAux_lt_ten _ _ _ hx)
    (fun x hx => decDigitsAux_lt_ten _ _ _ hx) hrev
  exact decDigits_injective hmap

/-- Events affecting the pending-command table of one `RpcClient`:
`issue` is a `command(...)` call (it draws the next counter value, registers
the resolver pair and arms the per-call timer); `respond i` is an incoming
`response` message with correlation id `i` (the relevant slice of
`handleMessage`); `fire i` is the per-call timeout callback actually
running; `disconnect` is an explicit `disconnect()` call. -/
inductive RpcEv where
  | issue
  | respond (i : String)
  | fire (i : String)
  | disconnect
  deriving Repr, DecidableEq

/-- Pending-command bookkeeping of `RpcClient`: the keys of
`pendingCommands`, the ids whose `setTimeout` is still armed, and
`commandIdCounter`. -/
structure RpcState where
  pending : List String
  timers : List String
  counter : Nat
  deriving Repr, DecidableEq

/-- How a pending command settles: `resolve` via a matching response,
rejection via the per-call timeout, or rejection via `disconnect()`. -/
inductive Outcome where
  | resolved (i : String)
  | timedOut (i : String)
  | disconnected (i : String)
  deriving Repr, DecidableEq

def Outcome.cid : Outcome → String
  | Outcome.resolved i => i
  | Outcome.timedOut i => i
  | Outcome.disconnected i => i

/-- One step of the pending-command lifecycle, returning the new state and
the settlements it produces.  `issue`: `command()` increments the counter,
stores the entry and arms its timer.  `respond i`: `handleMessage` clears
the timer, deletes the entry and resolves it — only when `i` is pending.
`fire i`: the timeout callback deletes the entry and rejects it (the timer
has fired, so it is no longer armed).  `disconnect`: clears every timer and
rejects every pending command. -/
def rpcStep (s : RpcState) : RpcEv → RpcState × List Outcome
  | RpcEv.issue =>
    let i := mkCmdId (s.counter + 1)
    ({ pending := s.pending ++ [i], timers := s.timers ++ [i],
       counter := s.counter + 1 }, [])
  | RpcEv.respond i =>
    if i ∈ s.pending then
      ({ s with pending := s.pending.erase i, timers := s.timers.erase i },
        [Outcome.resolved i])
    else (s, [])
  | RpcEv.fire i =>
    ({ s with pending := s.pending.erase i, timers := s.timers.erase i },
      [Outcome.timedOut i])
  | RpcEv.disconnect =>
    ({ s with pending := [], timers := [] }, s.pending.map Outcome.disconnected)

def rpcRun (s : RpcState) : List RpcEv → RpcState × List Outcome
  | [] => (s, [])
  | e :: es =>
    let r := rpcStep s e
    let rest := rpcRun r.1 es
    (rest.1, r.2 ++ rest.2)

/-- Precondition of an event in state `s`: a timeout callback can only run
while its timer is armed (`clearTimeout` prevents the rest); the other
events are always possible. -/
def evGuard (s : RpcState) : RpcEv → Bool
  | RpcEv.fire j => s.timers.contains j
  | _ => true

/-- The command ids drawn by one event (only `issue` draws one). -/
def evIssued (s : RpcState) : RpcEv → List String
  | RpcEv.issue => [mkCmdId (s.counter + 1)]
  | _ => []

/-- A run is valid when every event satisfies its guard. -/
def rpcValidB (s : RpcState) : List RpcEv → Bool
  | [] => true
  | e :: es => evGuard s e && rpcValidB (rpcStep s e).1 es

/-- The command ids issued along a run, in order. -/
def issuedIds (s : RpcState) : List RpcEv → List String
  | [] => []
  | e :: es => evIssued s e ++ issuedIds (rpcStep s e).1 es

/-- Fresh client: empty table, no timers, counter 0. -/
def rpcInit : RpcState := ⟨[], [], 0⟩

/-- Invariant of the pending table: armed timers are exactly the pending
ids, pending ids are pairwise distinct, and each is an id already drawn
from the counter. -/
def RpcInv (s : RpcState) : Prop :=
  s.timers = s.pending ∧ s.pending.Nodup ∧
    ∀ i ∈ s.pending, ∃ k, 1 ≤ k ∧ k ≤ s.counter ∧ i = mkCmdId k

theorem rpcInv_init : RpcInv rpcInit := by
  refine ⟨rfl, List.nodup_nil, ?_⟩
  intro i hi
  simp [rpcInit] at hi

theorem fresh_not_pending {s : RpcState} (hinv : RpcInv s) :
    mkCmdId (s.counter + 1) ∉ s.pending := by
  intro hmem
  obtain ⟨k, _, hk2, hk3⟩ := hinv.2.2 _ hmem
  have := mkCmdId_injective hk3.symm
  omega

theorem rpcInv_step (s : RpcState) (e : RpcEv) (hinv : RpcInv s) :
    RpcInv (rpcStep s e).1 := by
  obtain ⟨ht, hn, hb⟩ := hinv
  cases e with
  | issue =>
    refine ⟨by simp [rpcStep, ht], ?_, ?_⟩
    · simp only [rpcStep]
      rw [List.nodup_append]
      exact ⟨hn, List.nodup_singleton _,
        by simpa [List.disjoint_singleton] using fresh_not_pending ⟨ht, hn, hb⟩⟩
    · intro i hi
      simp only [rpcStep, List.mem_append, List.mem_singleton] at hi
      rcases hi with h1 | h2
      · obtain ⟨k, hk1, hk2, hk3⟩ := hb i h1
        exact ⟨k, hk1, by simp [rpcStep]; omega, hk3⟩
      · exact ⟨s.counter + 1, by omega, by simp [rpcStep], h2⟩
  | respond i =>
    by_cases hmem : i ∈ s.pending
    · simp only [rpcStep, if_pos hmem]
      refine ⟨by simp [ht], hn.erase i, ?_⟩
      intro j hj
      exact hb j (List.mem_of_mem_erase hj)
    · simp only [rpcStep, if_neg hmem]
      exact ⟨ht, hn, hb⟩
  | fire i =>
    simp only [rpcStep]
    refine ⟨by simp [ht], hn.erase i, ?_⟩
    intro j hj
    exact hb j (List.mem_of_mem_erase hj)
  | disconnect =>
    exact ⟨rfl, List.nodup_nil, by intro i hi; simp [rpcStep] at hi⟩

theorem rpcInv_run (evs : List RpcEv) :
    ∀ s, RpcInv s → RpcInv (rpcRun s evs).1 := by
  induction evs with
  | nil => intro s h; exact h
  | cons e es ih =>
    intro s h
    exact ih _ (rpcInv_step s e h)

theorem counter_mono (s : RpcState) (e : RpcEv) :
    s.counter ≤ (rpcStep s e).1.counter := by
  cases e with
  | issue => simp [rpcStep]
  | respond i => by_cases h : i ∈ s.pending <;> simp [rpcStep, h]
  | fire i => simp [rpcStep]
  | disconnect => simp [rpcStep]

theorem issued_gt_counter (evs : List RpcEv) :
    ∀ s i, i ∈ issuedIds s evs → ∃ k, s.counter < k ∧ i = mkCmdId k := by
  induction evs with
  | nil => intro s i hi; simp [issuedIds] at hi
  | cons e es ih =>
    intro s i hi
    simp only [issuedIds, List.mem_append] at hi
    rcases hi with h1 | h2
    · cases e <;> simp [evIssued] at h1
      exact ⟨s.counter + 1, by omega, h1⟩
    · obtain ⟨k, hk1, hk2⟩ := ih _ i h2
      exact ⟨k, lt_of_le_of_lt (counter_mono s e) hk1, hk2⟩

theorem issued_nodup (evs : List RpcEv) : ∀ s, (issuedIds s evs).Nodup := by
  induction evs with
  | nil => intro s; exact List.nodup_nil
  | cons e es ih =>
    intro s
    cases e with
    | issue =>
      have hun : issuedIds s (RpcEv.issue :: es) =
          mkCmdId (s.counter + 1) :: issuedIds (rpcStep s RpcEv.issue).1 es := rfl
      rw [hun, List.nodup_cons]
      refine ⟨?_, ih _⟩
      intro hmem
      obtain ⟨k, hk1, hk2⟩ := issued_gt_counter es _ _ hmem
      have : k = s.counter + 1 := mkCmdId_injective hk2.symm
      simp [rpcStep] at hk1
      omega
    | respond i => exact ih (rpcStep s (RpcEv.respond i)).1
    | fire i => exact ih (rpcStep s (RpcEv.fire i)).1
    | disconnect => exact ih (rpcStep s RpcEv.disconnect).1

end PiWeb.Rpc


namespace PiWeb.Rpc

theorem rpc_step_ledger (s : RpcState) (e : RpcEv) (hinv : RpcInv s)
    (hval : evGuard s e = true) (i : String) :
    (evIssued s e).count i + (if i ∈ s.pending then 1 else 0) =
      ((rpcStep s e).2.map Outcome.cid).count i +
        (if i ∈ (rpcStep s e).1.pending then 1 else 0) := by
  cases e with
  | issue =>
    by_cases hi : i = mkCmdId (s.counter + 1)
    · subst hi
      have hf := fresh_not_pending hinv
      simp [rpcStep, evIssued, hf, List.count_cons, List.mem_append]
    · simp [rpcStep, evIssued, List.count_cons, hi, List.mem_append]
  | respond j =>
    by_cases hmem : j ∈ s.pending
    · simp only [rpcStep, if_pos hmem]
      by_cases hij : i = j
      · subst hij
        have hne : i ∉ s.pending.erase i := fun hmm =>
          ((hinv.2.1.mem_erase_iff).mp hmm).1 rfl
        simp [evIssued, hmem, hne, List.count_cons, Outcome.cid]
      · have hiff : i ∈ s.pending.erase j ↔ i ∈ s.pending := List.mem_erase_of_ne hij
        simp [evIssued, List.count_cons, hij, hiff, Outcome.cid]
    · simp [rpcStep, if_neg hmem, evIssued]
  | fire j =>
    have hmem : j ∈ s.pending := by
      rw [← hinv.1]
      simpa [evGuard] using hval
    by_cases hij : i = j
    · subst hij
      have hne : i ∉ s.pending.erase i := fun hmm =>
        ((hinv.2.1.mem_erase_iff).mp hmm).1 rfl
      simp [rpcStep, evIssued, hmem, hne, List.count_cons, Outcome.cid]
    · have hiff : i ∈ s.pending.erase j ↔ i ∈ s.pending := List.mem_erase_of_ne hij
      simp [rpcStep, evIssued, List.count_cons, hij, hiff, Outcome.cid]
  | disconnect =>
    have hmapeq : (s.pending.map Outcome.disconnected).map Outcome.cid = s.pending := by
      rw [List.map_map]
      have hco : Outcome.cid ∘ Outcome.disconnected = id := by
        funext x; rfl
      rw [hco, List.map_id]
    by_cases hmem : i ∈ s.pending
    · simp [rpcStep, evIssued, hmapeq, hmem, List.count_eq_one_of_mem hinv.2.1 hmem]
    · simp [rpcStep, evIssued, hmapeq, hmem, List.count_eq_zero_of_not_mem hmem]

theorem rpc_ledger (evs : List RpcEv) :
    ∀ s, RpcInv s → rpcValidB s evs = true → ∀ i,
      (issuedIds s evs).count i + (if i ∈ s.pending then 1 else 0) =
        ((rpcRun s evs).2.map Outcome.cid).count i +
          (if i ∈ (rpcRun s evs).1.pending then 1 else 0) := by
  induction evs with
  | nil => intro s _ _ i; simp [issuedIds, rpcRun]
  | cons e es ih =>
    intro s hinv hv i
    have hunfold : rpcValidB s (e :: es) =
        (evGuard s e && rpcValidB (rpcStep s e).1 es) := rfl
    rw [hunfold, Bool.and_eq_true] at hv
    have hstep := rpc_step_ledger s e hinv hv.1 i
    have hih := ih (rpcStep s e).1 (rpcInv_step s e hinv) hv.2 i
    have hrun : rpcRun s (e :: es) =
        ((rpcRun (rpcStep s e).1 es).1,
          (rpcStep s e).2 ++ (rpcRun (rpcStep s e).1 es).2) := rfl
    have hiss : issuedIds s (e :: es) =
        evIssued s e ++ issuedIds (rpcStep s e).1 es := rfl
    rw [hrun, hiss]
    simp only [List.count_append, List.map_append]
    omega

theorem rpcRun_append (p q : List RpcEv) : ∀ s,
    rpcRun s (p ++ q) =
      ((rpcRun (rpcRun s p).1 q).1,
        (rpcRun s p).2 ++ (rpcRun (rpcRun s p).1 q).2) := by
  induction p with
  | nil => intro s; simp [rpcRun]
  | cons e es ih =>
    intro s
    simp only [List.cons_append, rpcRun]
    rw [show es.append q = es ++ q from rfl, ih]
    simp [List.append_assoc]

theorem rpcValidB_append (p q : List RpcEv) : ∀ s,
    rpcValidB s (p ++ q) = (rpcValidB s p && rpcValidB (rpcRun s p).1 q) := by
  induction p with
  | nil => intro s; simp [rpcValidB, rpcRun]
  | cons e es ih =>
    intro s
    simp only [List.cons_append, rpcValidB, rpcRun]
    rw [show es.append q = es ++ q from rfl, ih]
    simp [Bool.and_assoc]

/-- **C3.** Along every valid, quiescent run of the client (quiescent: no
timer is left armed at the end — a real `setTimeout` always either fires or
is cleared), every id issued by `command()` settles exactly once — counts of
settlements and issuances agree, and an id is issued at most once — and from
the moment a settlement for an id is produced, that id is no longer in the
pending table.  The three settlement kinds are a matching response, the
per-call timeout, and `disconnect()`. -/
theorem rpc_command_exactly_one_outcome (evs : List RpcEv) (i : String)
    (hv : rpcValidB rpcInit evs = true)
    (hq : (rpcRun rpcInit evs).1.timers = []) :
    ((rpcRun rpcInit evs).2.map Outcome.cid).count i =
        (issuedIds rpcInit evs).count i ∧
      (issuedIds rpcInit evs).count i ≤ 1 ∧
      ∀ p q, evs = p ++ q →
        1 ≤ ((rpcRun rpcInit p).2.map Outcome.cid).count i →
        ((rpcRun rpcInit p).2.map Outcome.cid).count i = 1 ∧
          i ∉ (rpcRun rpcInit p).1.pending := by
  have hfin := rpcInv_run evs rpcInit rpcInv_init
  have hpend : (rpcRun rpcInit evs).1.pending = [] := hfin.1.symm.trans hq
  have hled := rpc_ledger evs rpcInit rpcInv_init hv i
  have hinit : (if i ∈ rpcInit.pending then 1 else 0) = 0 := by simp [rpcInit]
  have hfin0 : (if i ∈ (rpcRun rpcInit evs).1.pending then 1 else 0) = 0 := by
    simp [hpend]
  have hle : (issuedIds rpcInit evs).count i ≤ 1 :=
    List.nodup_iff_count_le_one.mp (issued_nodup evs rpcInit) i
  refine ⟨by omega, hle, ?_⟩
  intro p q hpq hone
  have hvp : rpcValidB rpcInit p = true := by
    rw [hpq, rpcValidB_append] at hv
    exact ((Bool.and_eq_true _ _).mp hv).1
  have hledp := rpc_ledger p rpcInit rpcInv_init hvp i
  have hlep : (issuedIds rpcInit p).count i ≤ 1 :=
    List.nodup_iff_count_le_one.mp (issued_nodup p rpcInit) i
  rw [hinit] at hledp
  by_cases hmem : i ∈ (rpcRun rpcInit p).1.pending
  · rw [if_pos hmem] at hledp
    omega
  · rw [if_neg hmem] at hledp
    exact ⟨by omega, hmem⟩

theorem rpc_command_exactly_one_outcome_witness :
    rpcValidB rpcInit [RpcEv.issue, RpcEv.respond (mkCmdId 1)] = true ∧
      (rpcRun rpcInit [RpcEv.issue, RpcEv.respond (mkCmdId 1)]).1.timers = [] ∧
      ((rpcRun rpcInit [RpcEv.issue, RpcEv.respond (mkCmdId 1)]).2.map
          Outcome.cid).count (mkCmdId 1) =
        (issuedIds rpcInit [RpcEv.issue, RpcEv.respond (mkCmdId 1)]).count (mkCmdId 1) :=
  ⟨by decide, by decide,
    (rpc_command_exactly_one_outcome [RpcEv.issue, RpcEv.respond (mkCmdId 1)]
      (mkCmdId 1) (by decide) (by decide)).1⟩

end PiWeb.Rpc

namespace PiWeb.Tree

/-- One block of a structured message content array (`{type, text, ...}`). -/
structure ContentBlock where
  typ : String
  text : String
  deriving Repr, DecidableEq, Inhabited

/-- A message's `content`: either a bare string or an array of blocks. -/
inductive MsgContent where
  | str (s : String)
  | blocks (bs : List ContentBlock)
  deriving Repr, DecidableEq, Inhabited

/-- A non-header, non-label session record as the tree builder consumes it
(`SessionEntry`): discriminator, id, nullable parent id, timestamp, and the
payload fields used for display (`message.role`/`message.content` for
message records, `name` for session-info records). -/
structure SEntry where
  typ : String
  id : String
  parentId : Option String
  timestamp : String
  role : String
  content : MsgContent
  name : Option String
  deriving Repr, DecidableEq, Inhabited

/-- The result of `JSON.parse` on one log line, classified the way the
read loop of `getSessionTree` discriminates on `entry.type`. -/
inductive FileEntry where
  | header
  | labelRec (targetId labelName : String)
  | record (e : SEntry)
  deriving Repr, DecidableEq

/-- A `SessionTreeNode` (nested inductive: children are nodes again). -/
inductive STreeNode where
  | mk (id : String) (parentId : Option String) (typ : String) (text : String)
      (timestamp : String) (label : Option String) (children : List STreeNode)
      (isCurrent : Bool)
  deriving Repr

def STreeNode.id : STreeNode → String
  | STreeNode.mk i _ _ _ _ _ _ _ => i

def STreeNode.children : STreeNode → List STreeNode
  | STreeNode.mk _ _ _ _ _ _ cs _ => cs

/-- `content.find(c => c.type === "text")` -/
def findTextBlock (bs : List ContentBlock) : Option ContentBlock :=
  bs.find? (fun c => c.typ == "text")

/-- `entryToTreeNode`: derive the semantic type and (truncated) display text
from the record kind, with the `[${entry.type}]` fallback for empty text;
children start empty, `isCurrent` false. -/
def entryToTreeNode (e : SEntry) (label : Option String) : STreeNode :=
  let tt : String × String :=
    if e.typ == "message" then
      if e.role == "user" then
        ("user",
          match e.content with
          | MsgContent.str s => s.take 100
          | MsgContent.blocks bs =>
            match findTextBlock bs with
            | some b => b.text.take 100
            | none => "")
      else if e.role == "assistant" then
        ("assistant",
          match e.content with
          | MsgContent.str _ => ""
          | MsgContent.blocks bs =>
            match findTextBlock bs with
            | some b => b.text.take 100
            | none => "")
      else ("branch", "[" ++ e.role ++ "]")
    else if e.typ == "compaction" then ("compaction", "Compaction")
    else if e.typ == "branch_summary" then ("branch", "Branch summary")
    else if e.typ == "session_info" then
      ("label",
        match e.name with
        | some n => if n ≠ "" then n else "Session info"
        | none => "Session info")
    else ("branch", "")
  STreeNode.mk e.id e.parentId tt.1
    (if tt.2 ≠ "" then tt.2 else "[" ++ e.typ ++ "]")
    e.timestamp label [] false

/-- `labels.get(id)` for the label `Map` built in file order (later `set`
wins). -/
def lookupLabel (labels : List (String × String)) (i : String) : Option String :=
  (labels.reverse.find? (fun p => p.1 == i)).map (·.2)

/-- What the read loop of `getSessionTree` accumulates: the non-header,
non-label entries in file order, the label map, and the id of the last
entry (the "current" candidate). -/
structure ScanAcc where
  entries : List SEntry
  labels : List (String × String)
  currentId : Option String
  deriving Repr, DecidableEq

/-- The read loop: malformed lines (`none`) are skipped, the header is
skipped, label records go to the label map, everything else is appended to
`entries` and becomes the new current-id candidate. -/
def scanLines (acc : ScanAcc) : List (Option FileEntry) → ScanAcc
  | [] => acc
  | none :: rest => scanLines acc rest
  | some FileEntry.header :: rest => scanLines acc rest
  | some (FileEntry.labelRec t n) :: rest =>
    scanLines ⟨acc.entries, acc.labels ++ [(t, n)], acc.currentId⟩ rest
  | some (FileEntry.record e) :: rest =>
    scanLines ⟨acc.entries ++ [e], acc.labels, some e.id⟩ rest

def allIds (es : List SEntry) : List String := es.map (·.id)

/-- Where the linking pass puts an entry: `none` means it becomes a forest
root (null parent, self parent, or parent id absent from the node map);
`some p` means it is pushed onto the children of the node with id `p`. -/
def resolvedParent (ids : List String) (e : SEntry) : Option String :=
  match e.parentId with
  | none => none
  | some p => if p = e.id then none else if p ∈ ids then some p else none

/-- The entries attached as children of the node with id `i`, in file
order. -/
def childEntries (es : List SEntry) (i : String) : List SEntry :=
  es.filter (fun e => resolvedParent (allIds es) e == some i)

/-- The entries promoted to forest roots, in file order. -/
def rootEntries (es : List SEntry) : List SEntry :=
  es.filter (fun e => resolvedParent (allIds es) e == none)

/-- A node before linking: `entryToTreeNode` plus the `isCurrent` mark
(`nodeMap.get(currentId).isCurrent = true`; with pairwise-distinct ids this
marks exactly the node whose id is the current id). -/
def baseNode (labels : List (String × String)) (cur : Option String) (e : SEntry) :
    STreeNode :=
  let n := entryToTreeNode e (lookupLabel labels e.id)
  STreeNode.mk n.id e.parentId
    (match n with | STreeNode.mk _ _ t _ _ _ _ _ => t)
    (match n with | STreeNode.mk _ _ _ t _ _ _ _ => t)
    e.timestamp (lookupLabel labels e.id) [] (cur == some e.id)

/-- The subtree rooted at entry `e`, as the shared mutable node structure of
`getSessionTree` denotes it.  The fuel bounds the recursion depth; for a log
whose entries have pairwise-distinct ids every path from a root is simple,
so fuel `es.length` (as used by `buildForest`) never truncates anything
reachable from the roots — the embedding is faithful for such logs (the
claims about the builder assume distinct ids). -/
def buildNode (es : List SEntry) (labels : List (String × String))
    (cur : Option String) : Nat → SEntry → STreeNode
  | 0, e => baseNode labels cur e
  | f + 1, e =>
    match baseNode labels cur e with
    | STreeNode.mk i pid t tx ts lb _ cu =>
      STreeNode.mk i pid t tx ts lb
        ((childEntries es e.id).map (buildNode es labels cur f)) cu

/-- The forest returned in `{ tree: roots }`. -/
def buildForest (es : List SEntry) (labels : List (String × String))
    (cur : Option String) : List STreeNode :=
  (rootEntries es).map (buildNode es labels cur es.length)

mutual

/-- Number of nodes in a subtree. -/
def nodeCount : STreeNode → Nat
  | STreeNode.mk _ _ _ _ _ _ cs _ => 1 + forestCount cs

/-- Total number of nodes in a forest. -/
def forestCount : List STreeNode → Nat
  | [] => 0
  | t :: ts => nodeCount t + forestCount ts

end

mutual

/-- The ids occurring in a subtree, preorder. -/
def nodeIds : STreeNode → List String
  | STreeNode.mk i _ _ _ _ _ cs _ => i :: forestIds cs

/-- The ids occurring in a forest, preorder. -/
def forestIds : List STreeNode → List String
  | [] => []
  | t :: ts => nodeIds t ++ forestIds ts

end

/-- Result of `getSessionTree`. -/
structure TreeResult where
  tree : List STreeNode
  currentId : Option String
  deriving Repr

/-- The file system as `getSessionTree` consults it: the `fs.existsSync`
check and the subsequent `fs.promises.readFile`, which either yields the
file text or fails. -/
structure FS where
  pathExists : String → Bool
  readFile : String → Except String String

/-- `getSessionTree(sessionPath)`: an empty or non-existing path yields the
empty forest `{tree: []}` with no error; otherwise the file is read (a read
failure propagates), split into lines, parsed line by line (blank and
malformed lines skipped, `parseLine` standing for `JSON.parse` plus the
record classification), and linked into a forest. -/
def getSessionTree (fs : FS) (parseLine : String → Option FileEntry)
    (sessionPath : String) : Except String TreeResult :=
  if sessionPath == "" || !fs.pathExists sessionPath then
    Except.ok ⟨[], none⟩
  else
    match fs.readFile sessionPath with
    | Except.error err => Except.error err
    | Except.ok content =>
      let lines := content.splitOn "\n"
      let parsed := lines.map (fun l => if l.trim = "" then none else parseLine l)
      let acc := scanLines ⟨[], [], none⟩ parsed
      Except.ok ⟨buildForest acc.entries acc.labels acc.currentId, acc.currentId⟩

/-- **C9.** An empty path or a path that fails the existence check yields
`{tree: []}` without an error; a path whose file exists but whose read then
fails propagates the read error to the caller instead of silently returning
an empty forest. -/
theorem get_session_tree_missing_vs_read_error (fs : FS)
    (parseLine : String → Option FileEntry) (p : String) (err : String) :
    ((p = "" ∨ fs.pathExists p = false) →
        getSessionTree fs parseLine p = Except.ok ⟨[], none⟩) ∧
      (p ≠ "" → fs.pathExists p = true → fs.readFile p = Except.error err →
        getSessionTree fs parseLine p = Except.error err) := by
  constructor
  · intro h
    rcases h with h1 | h2
    · simp [getSessionTree, h1]
    · simp [getSessionTree, h2]
  · intro h1 h2 h3
    have hb : (p == "") = false := by
      simp [h1]
    simp [getSessionTree, hb, h2, h3]

theorem get_session_tree_missing_vs_read_error_witness :
    getSessionTree ⟨fun _ => false, fun _ => Except.error "boom"⟩ (fun _ => none)
        "a.jsonl" = Except.ok ⟨[], none⟩ ∧
      getSessionTree ⟨fun _ => true, fun _ => Except.error "EACCES"⟩ (fun _ => none)
        "b.jsonl" = Except.error "EACCES" :=
  ⟨(get_session_tree_missing_vs_read_error ⟨fun _ => false, fun _ => Except.error "boom"⟩
      (fun _ => none) "a.jsonl" "boom").1 (Or.inr rfl),
    (get_session_tree_missing_vs_read_error ⟨fun _ => true, fun _ => Except.error "EACCES"⟩
      (fun _ => none) "b.jsonl" "EACCES").2 (by decide) rfl rfl⟩

/-- Records whose parent id is non-null, different from their own id, and
absent from the id map: the linking pass promotes exactly these "orphans"
to roots (besides the null/self-parent ones). -/
def unresolvableB (ids : List String) (e : SEntry) : Bool :=
  match e.parentId with
  | none => false
  | some p => !(p == e.id) && !(ids.contains p)

def unresolvableCount (es : List SEntry) : Nat :=
  (es.filter (unresolvableB (allIds es))).length

/-- Records with a null or self parent id. -/
def rootlikeB (e : SEntry) : Bool :=
  e.parentId == none || e.parentId == some e.id

def rootlikeCount (es : List SEntry) : Nat :=
  (es.filter rootlikeB).length

def cycleEntryA : SEntry :=
  ⟨"message", "a", some "b", "t1", "user", MsgContent.str "hi", none⟩

def cycleEntryB : SEntry :=
  ⟨"message", "b", some "a", "t2", "assistant",
    MsgContent.blocks [⟨"text", "yo"⟩], none⟩

/-- **C2 (counterexample).** Two records with pairwise-distinct ids whose
parent ids reference each other (a forward-referencing 2-cycle, possible
because the node map is built in a first pass over the whole file) have
`K = 0` unresolvable parents and no null/self parents, so the claim predicts
2 total nodes in 0 roots; but the linking pass attaches each record under
the other and neither reaches the returned roots: the forest
`getSessionTree` returns holds 0 nodes, not `N = 2`. -/
theorem tree_count_cycle_counterexample :
    (allIds [cycleEntryA, cycleEntryB]).Nodup ∧
      unresolvableCount [cycleEntryA, cycleEntryB] = 0 ∧
      rootlikeCount [cycleEntryA, cycleEntryB] = 0 ∧
      ([cycleEntryA, cycleEntryB] : List SEntry).length = 2 ∧
      forestCount (buildForest [cycleEntryA, cycleEntryB] [] (some "b")) = 0 := by
  refine ⟨by decide, by decide, by decide, rfl, ?_⟩
  rfl

end PiWeb.Tree

namespace PiWeb.Tree

theorem forestIds_append (l₁ l₂ : List STreeNode) :
    forestIds (l₁ ++ l₂) = forestIds l₁ ++ forestIds l₂ := by
  induction l₁ with
  | nil => rfl
  | cons t ts ih =>
    rw [List.cons_append,
      show forestIds (t :: (ts ++ l₂)) = nodeIds t ++ forestIds (ts ++ l₂) from rfl,
      show forestIds (t :: ts) = nodeIds t ++ forestIds ts from rfl, ih,
      List.append_assoc]

mutual

theorem nodeCount_eq_length (t : STreeNode) : nodeCount t = (nodeIds t).length := by
  cases t with
  | mk i pid ty tx ts lb cs cu =>
    rw [show nodeCount (STreeNode.mk i pid ty tx ts lb cs cu) = 1 + forestCount cs from rfl,
      show nodeIds (STreeNode.mk i pid ty tx ts lb cs cu) = i :: forestIds cs from rfl,
      List.length_cons, forestCount_eq_length cs]
    omega

theorem forestCount_eq_length (ts : List STreeNode) :
    forestCount ts = (forestIds ts).length := by
  cases ts with
  | nil => rfl
  | cons t ts =>
    rw [show forestCount (t :: ts) = nodeCount t + forestCount ts from rfl,
      show forestIds (t :: ts) = nodeIds t ++ forestIds ts from rfl,
      List.length_append, nodeCount_eq_length t, forestCount_eq_length ts]

end

theorem nodeIds_buildNode_zero (es : List SEntry) (L : List (String × String))
    (C : Option String) (e : SEntry) :
    nodeIds (buildNode es L C 0 e) = [e.id] := rfl

theorem nodeIds_buildNode_succ (es : List SEntry) (L : List (String × String))
    (C : Option String) (f : Nat) (e : SEntry) :
    nodeIds (buildNode es L C (f + 1) e) =
      e.id :: forestIds ((childEntries es e.id).map (buildNode es L C f)) := rfl

theorem forestIds_map_zero (es : List SEntry) (L : List (String × String))
    (C : Option String) (cs : List SEntry) :
    forestIds (cs.map (buildNode es L C 0)) = allIds cs := by
  induction cs with
  | nil => rfl
  | cons c cs ih =>
    rw [List.map_cons,
      show forestIds (buildNode es L C 0 c :: cs.map (buildNode es L C 0)) =
        nodeIds (buildNode es L C 0 c) ++ forestIds (cs.map (buildNode es L C 0)) from rfl,
      nodeIds_buildNode_zero, ih]
    rfl

theorem allIds_append (es : List SEntry) (e : SEntry) :
    allIds (es ++ [e]) = allIds es ++ [e.id] := by
  simp [allIds]

end PiWeb.Tree

namespace PiWeb.Tree

/-- The backward-reference check for the record at position `k`: a non-null,
non-self parent id that resolves at all must already occur among the ids of
the records strictly before position `k` (append-only logs satisfy this:
records reference ancestors, which were written earlier). -/
def bwdCheck (es : List SEntry) (k : Nat) (e : SEntry) : Bool :=
  match e.parentId with
  | none => true
  | some p =>
    p == e.id || !((allIds es).contains p) || (allIds (es.take k)).contains p

/-- A log has only backward references when every record passes
`bwdCheck` at its position. -/
def BwdRefs (es : List SEntry) : Prop :=
  ∀ k, (hk : k < es.length) → bwdCheck es k es[k] = true

instance (es : List SEntry) : Decidable (BwdRefs es) :=
  inferInstanceAs (Decidable (∀ k, (hk : k < es.length) → bwdCheck es k es[k] = true))

theorem resolvedParent_some (ids : List String) (x : SEntry) (p : String)
    (h : resolvedParent ids x = some p) :
    x.parentId = some p ∧ p ≠ x.id ∧ p ∈ ids := by
  cases hq : x.parentId with
  | none => simp [resolvedParent, hq] at h
  | some q =>
    simp only [resolvedParent, hq] at h
    by_cases h1 : q = x.id
    · simp [h1] at h
    · by_cases h2 : q ∈ ids
      · simp only [if_neg h1, if_pos h2, Option.some.injEq] at h
        refine ⟨?_, ?_, ?_⟩ <;> rw [← h]
        · exact h1
        · exact h2
      · simp [h1, h2] at h

theorem resolvedParent_stable (es : List SEntry) (e : SEntry)
    (hB : BwdRefs (es ++ [e])) :
    ∀ x ∈ es, resolvedParent (allIds (es ++ [e])) x = resolvedParent (allIds es) x := by
  intro x hx
  obtain ⟨k, hk, hxk⟩ := List.mem_iff_getElem.mp hx
  cases hp : x.parentId with
  | none => simp [resolvedParent, hp]
  | some p =>
    by_cases hpx : p = x.id
    · simp [resolvedParent, hp, hpx]
    · by_cases hmem : p ∈ allIds es
      · have hmem2 : p ∈ allIds (es ++ [e]) := by
          rw [allIds_append]
          exact List.mem_append_left _ hmem
        simp [resolvedParent, hp, hpx, hmem, hmem2]
      · have hmem2 : p ∉ allIds (es ++ [e]) := by
          rw [allIds_append]
          intro hin
          rcases List.mem_append.mp hin with h1 | h2
          · exact hmem h1
          · -- p = e.id; backward refs force p among earlier ids, inside es
            have hpe : p = e.id := by simpa using h2
            have hklen : k < (es ++ [e]).length := by
              rw [List.length_append]
              omega
            have hfull : (es ++ [e])[k] = x := by
              rw [List.getElem_append_left hk]
              exact hxk
            have hb := hB k hklen
            rw [hfull] at hb
            simp only [bwdCheck, hp] at hb
            have hc1 : (p == x.id) = false := by
              simp [hpx]
            have hc2 : ((allIds (es ++ [e])).contains p) = true := by
              rw [allIds_append]
              simp [hpe]
            have htake : (es ++ [e]).take k = es.take k :=
              List.take_append_of_le_length (le_of_lt hk)
            rw [hc1, hc2, htake] at hb
            simp only [Bool.false_or, Bool.not_true] at hb
            have hmemtake : p ∈ allIds (es.take k) := by
              simpa using hb
            have hsub : allIds (es.take k) ⊆ allIds es :=
              List.map_subset _ (List.take_subset k es)
            exact hmem (hsub hmemtake)
        simp [resolvedParent, hp, hpx, hmem, hmem2]

theorem lastId_not_in_prefix (es : List SEntry) (e : SEntry)
    (hN : (allIds (es ++ [e])).Nodup) : e.id ∉ allIds es := by
  rw [allIds_append, List.nodup_append] at hN
  intro hmem
  exact hN.2.2 hmem (by simp)

theorem nodup_restrict (es : List SEntry) (e : SEntry)
    (hN : (allIds (es ++ [e])).Nodup) : (allIds es).Nodup := by
  rw [allIds_append, List.nodup_append] at hN
  exact hN.1

theorem bwd_restrict (es : List SEntry) (e : SEntry)
    (hB : BwdRefs (es ++ [e])) : BwdRefs es := by
  intro k hk
  have hklen : k < (es ++ [e]).length := by
    rw [List.length_append]; omega
  have hb := hB k hklen
  have hfull : (es ++ [e])[k] = es[k] := List.getElem_append_left hk
  rw [hfull] at hb
  set x := es[k] with hxdef
  cases hp : x.parentId with
  | none => simp [bwdCheck, hp]
  | some p =>
    simp only [bwdCheck, hp] at hb ⊢
    by_cases h1 : p = x.id
    · simp [h1]
    · rw [show (p == x.id) = false from by simp [h1]] at hb ⊢
      by_cases h2 : p ∈ allIds es
      · have h2full : ((allIds (es ++ [e])).contains p) = true := by
          rw [allIds_append]
          simp [List.mem_append_left _ h2]
        have htake : (es ++ [e]).take k = es.take k :=
          List.take_append_of_le_length (le_of_lt hk)
        rw [h2full, htake] at hb
        simp only [Bool.false_or, Bool.not_true] at hb
        rw [show ((allIds (es.take k)).contains p) = true from by simpa using hb]
        simp
      · rw [show ((allIds es).contains p) = false from by simpa using h2]
        simp

theorem childEntries_append (es : List SEntry) (e : SEntry)
    (hB : BwdRefs (es ++ [e])) (i : String) :
    childEntries (es ++ [e]) i =
      childEntries es i ++
        (if resolvedParent (allIds (es ++ [e])) e == some i then [e] else []) := by
  rw [childEntries, List.filter_append]
  congr 1
  · exact List.filter_congr (fun x hx => by rw [resolvedParent_stable es e hB x hx])
  · cases hcond : (resolvedParent (allIds (es ++ [e])) e == some i) <;>
      simp [List.filter, hcond]

theorem rootEntries_append (es : List SEntry) (e : SEntry)
    (hB : BwdRefs (es ++ [e])) :
    rootEntries (es ++ [e]) =
      rootEntries es ++
        (if resolvedParent (allIds (es ++ [e])) e == none then [e] else []) := by
  rw [rootEntries, List.filter_append]
  congr 1
  · exact List.filter_congr (fun x hx => by rw [resolvedParent_stable es e hB x hx])
  · cases hcond : (resolvedParent (allIds (es ++ [e])) e == none) <;>
      simp [List.filter, hcond]

theorem childEntries_last_nil (es : List SEntry) (e : SEntry)
    (hN : (allIds (es ++ [e])).Nodup) (hB : BwdRefs (es ++ [e])) :
    childEntries (es ++ [e]) e.id = [] := by
  rw [childEntries, List.filter_eq_nil_iff]
  intro x hx
  rcases List.mem_append.mp hx with hx1 | hx2
  · rw [resolvedParent_stable es e hB x hx1]
    cases hrp : resolvedParent (allIds es) x with
    | none => simp
    | some p =>
      have hfacts := resolvedParent_some _ _ _ hrp
      have hne : p ≠ e.id := fun hpe =>
        lastId_not_in_prefix es e hN (hpe ▸ hfacts.2.2)
      simp [hne]
  · have hxe : x = e := by simpa using hx2
    rw [hxe]
    cases hrp : resolvedParent (allIds (es ++ [e])) e with
    | none => simp [hrp]
    | some p =>
      have hfacts := resolvedParent_some _ _ _ hrp
      simp [hrp, hfacts.2.1]

theorem buildNode_last_ids (es : List SEntry) (e : SEntry)
    (L : List (String × String)) (C : Option String)
    (hN : (allIds (es ++ [e])).Nodup) (hB : BwdRefs (es ++ [e])) :
    ∀ f, nodeIds (buildNode (es ++ [e]) L C f e) = [e.id] := by
  intro f
  cases f with
  | zero => rfl
  | succ f =>
    rw [nodeIds_buildNode_succ, childEntries_last_nil es e hN hB]
    rfl

theorem buildNode_congr (es es' : List SEntry) (L : List (String × String))
    (C : Option String)
    (hch : ∀ i, childEntries es i = childEntries es' i) :
    ∀ f x, buildNode es L C f x = buildNode es' L C f x := by
  intro f
  induction f with
  | zero => intro x; rfl
  | succ f ih =>
    intro x
    simp only [buildNode]
    rw [hch x.id]
    have hmap : (childEntries es' x.id).map (buildNode es L C f) =
        (childEntries es' x.id).map (buildNode es' L C f) :=
      List.map_congr_left (fun c _ => ih c)
    rw [hmap]

end PiWeb.Tree


namespace PiWeb.Tree

theorem mcoe_append (l₁ l₂ : List String) :
    (↑(l₁ ++ l₂) : Multiset String) = ↑l₁ + ↑l₂ := rfl

theorem mcoe_cons (a : String) (l : List String) :
    (↑(a :: l) : Multiset String) = {a} + ↑l := rfl

theorem mcoe_nil : ((↑([] : List String)) : Multiset String) = 0 := rfl

/-- Inserting one extra leaf below `p` wherever `p` occurs: summed over a
list of subtrees. -/
theorem forestIds_map_insert (p eid : String) (b1 b2 b3 : SEntry → STreeNode)
    (cs : List SEntry)
    (h : ∀ c ∈ cs,
        (↑(nodeIds (b1 c)) : Multiset String) =
          ↑(nodeIds (b2 c)) + Multiset.replicate ((nodeIds (b3 c)).count p) eid) :
    (↑(forestIds (cs.map b1)) : Multiset String) =
      ↑(forestIds (cs.map b2)) +
        Multiset.replicate ((forestIds (cs.map b3)).count p) eid := by
  induction cs with
  | nil => simp [forestIds]
  | cons c cs ih =>
    have h1 := h c (List.mem_cons_self _ _)
    have h2 := ih (fun x hx => h x (List.mem_cons_of_mem _ hx))
    simp only [List.map_cons]
    rw [show forestIds (b1 c :: cs.map b1) = nodeIds (b1 c) ++ forestIds (cs.map b1)
        from rfl,
      show forestIds (b2 c :: cs.map b2) = nodeIds (b2 c) ++ forestIds (cs.map b2)
        from rfl,
      show forestIds (b3 c :: cs.map b3) = nodeIds (b3 c) ++ forestIds (cs.map b3)
        from rfl,
      List.count_append, mcoe_append, mcoe_append, h1, h2, Multiset.replicate_add]
    abel

/-- One extra entry `e` hanging below `p` changes the multiset of ids in the
subtree of any old entry `x` by exactly (number of occurrences of `p` in the
old subtree) copies of `e.id` — at every fuel level, offset by one. -/
theorem nodeIds_insert (es : List SEntry) (e : SEntry)
    (L : List (String × String)) (C : Option String) (p : String)
    (hN : (allIds (es ++ [e])).Nodup) (hB : BwdRefs (es ++ [e]))
    (hrp : resolvedParent (allIds (es ++ [e])) e = some p) :
    ∀ f, ∀ x ∈ es,
      (↑(nodeIds (buildNode (es ++ [e]) L C (f + 1) x)) : Multiset String) =
        ↑(nodeIds (buildNode es L C (f + 1) x)) +
          Multiset.replicate ((nodeIds (buildNode es L C f x)).count p) e.id := by
  intro f
  induction f with
  | zero =>
    intro x hx
    have hcnt : (nodeIds (buildNode es L C 0 x)).count p =
        if p = x.id then 1 else 0 := by
      rw [nodeIds_buildNode_zero]
      by_cases hpx : p = x.id <;> simp [List.count_cons, hpx]
    rw [nodeIds_buildNode_succ, nodeIds_buildNode_succ,
      childEntries_append es e hB x.id, hrp, List.map_append, forestIds_append, hcnt]
    by_cases hpx : p = x.id
    · rw [if_pos (by simp [hpx] : ((some p == some x.id) = true)), if_pos hpx]
      simp only [forestIds_map_zero, mcoe_cons, mcoe_append, mcoe_nil,
        Multiset.replicate_one, show allIds [e] = [e.id] from rfl]
      abel
    · rw [if_neg (by simp [hpx] : ¬((some p == some x.id) = true)), if_neg hpx]
      simp only [forestIds_map_zero, mcoe_cons, mcoe_append, mcoe_nil,
        Multiset.replicate_zero, show allIds ([] : List SEntry) = [] from rfl]
      abel
  | succ f ih =>
    intro x hx
    have hins := forestIds_map_insert p e.id
      (buildNode (es ++ [e]) L C (f + 1)) (buildNode es L C (f + 1))
      (buildNode es L C f) (childEntries es x.id)
      (fun c hc => ih c (List.mem_of_mem_filter hc))
    have hcnt : (nodeIds (buildNode es L C (f + 1) x)).count p =
        (forestIds ((childEntries es x.id).map (buildNode es L C f))).count p +
          (if p = x.id then 1 else 0) := by
      rw [nodeIds_buildNode_succ, List.count_cons]
      by_cases hpx : p = x.id
      · simp [hpx]
      · have hxp : ¬x.id = p := fun h => hpx h.symm
        simp [hpx, hxp]
    rw [nodeIds_buildNode_succ, nodeIds_buildNode_succ,
      childEntries_append es e hB x.id, hrp, List.map_append, forestIds_append,
      hcnt, Multiset.replicate_add]
    by_cases hpx : p = x.id
    · rw [if_pos (by simp [hpx] : ((some p == some x.id) = true)), if_pos hpx]
      rw [show List.map (buildNode (es ++ [e]) L C (f + 1)) [e] =
          [buildNode (es ++ [e]) L C (f + 1) e] from rfl,
        show forestIds [buildNode (es ++ [e]) L C (f + 1) e] =
          nodeIds (buildNode (es ++ [e]) L C (f + 1) e) ++ [] from rfl,
        buildNode_last_ids es e L C hN hB, List.append_nil]
      simp only [mcoe_cons, mcoe_append, mcoe_nil]
      rw [hins, Multiset.replicate_one]
      abel
    · rw [if_neg (by simp [hpx] : ¬((some p == some x.id) = true)), if_neg hpx]
      rw [show List.map (buildNode (es ++ [e]) L C (f + 1)) ([] : List SEntry) =
          [] from rfl,
        show forestIds ([] : List STreeNode) = [] from rfl, List.append_nil]
      simp only [mcoe_cons]
      rw [hins, Multiset.replicate_zero, add_zero]
      abel

end PiWeb.Tree

namespace PiWeb.Tree

/-- For a duplicate-free, backward-referencing log the multiset of ids in
the built forest is exactly the multiset of entry ids, at any sufficient
fuel. -/
theorem forest_perm (es : List SEntry) (L : List (String × String))
    (C : Option String) :
    (allIds es).Nodup → BwdRefs es → ∀ f, es.length ≤ f →
      (↑(forestIds ((rootEntries es).map (buildNode es L C f))) : Multiset String) =
        (↑(allIds es) : Multiset String) := by
  induction es using List.reverseRecOn with
  | nil => intro _ _ f _; rfl
  | append_singleton es e ih =>
    intro hN hB f hf
    have hN' := nodup_restrict es e hN
    have hB' := bwd_restrict es e hB
    have hlen : es.length + 1 ≤ f := by
      simpa [List.length_append] using hf
    obtain ⟨f0, rfl⟩ : ∃ f0, f = f0 + 1 := ⟨f - 1, by omega⟩
    have hf0 : es.length ≤ f0 := by omega
    cases hrp : resolvedParent (allIds (es ++ [e])) e with
    | none =>
      rw [rootEntries_append es e hB, hrp, if_pos (by simp), List.map_append,
        forestIds_append]
      have hch : ∀ i, childEntries (es ++ [e]) i = childEntries es i := by
        intro i
        rw [childEntries_append es e hB i, hrp]
        simp
      have hcongr : ∀ r ∈ rootEntries es,
          buildNode (es ++ [e]) L C (f0 + 1) r = buildNode es L C (f0 + 1) r :=
        fun r _ => buildNode_congr (es ++ [e]) es L C hch (f0 + 1) r
      rw [List.map_congr_left hcongr,
        show List.map (buildNode (es ++ [e]) L C (f0 + 1)) [e] =
          [buildNode (es ++ [e]) L C (f0 + 1) e] from rfl,
        show forestIds [buildNode (es ++ [e]) L C (f0 + 1) e] =
          nodeIds (buildNode (es ++ [e]) L C (f0 + 1) e) ++ [] from rfl,
        buildNode_last_ids es e L C hN hB, List.append_nil, mcoe_append,
        ih hN' hB' (f0 + 1) (by omega), allIds_append, mcoe_append]
    | some p =>
      have hfacts := resolvedParent_some _ _ _ hrp
      have hpes : p ∈ allIds es := by
        have hmem := hfacts.2.2
        rw [allIds_append] at hmem
        rcases List.mem_append.mp hmem with h1 | h2
        · exact h1
        · exact absurd (by simpa using h2) hfacts.2.1
      rw [rootEntries_append es e hB, hrp, if_neg (by simp), List.append_nil]
      have hins := forestIds_map_insert p e.id
        (buildNode (es ++ [e]) L C (f0 + 1)) (buildNode es L C (f0 + 1))
        (buildNode es L C f0) (rootEntries es)
        (fun r hr => nodeIds_insert es e L C p hN hB hrp f0 r
          (List.mem_of_mem_filter hr))
      rw [hins, ih hN' hB' (f0 + 1) (by omega)]
      have hcount : (forestIds ((rootEntries es).map (buildNode es L C f0))).count p
          = 1 := by
        have hc := congrArg (Multiset.count p) (ih hN' hB' f0 hf0)
        simp only [Multiset.coe_count] at hc
        rw [hc]
        exact List.count_eq_one_of_mem hN' hpes
      rw [hcount, Multiset.replicate_one, allIds_append, mcoe_append,
        show ((↑([e.id] : List String)) : Multiset String) = {e.id} + 0 from rfl]
      abel

theorem filter_or_length (a b : SEntry → Bool)
    (hdisj : ∀ x, ¬(a x = true ∧ b x = true)) :
    ∀ l : List SEntry, (l.filter (fun x => a x || b x)).length =
      (l.filter a).length + (l.filter b).length := by
  intro l
  induction l with
  | nil => rfl
  | cons x xs ih =>
    by_cases hax : a x = true
    · have hbx : b x = false := by
        rcases Bool.eq_false_or_eq_true (b x) with h | h
        · exact absurd ⟨hax, h⟩ (hdisj x)
        · exact h
      simp only [List.filter_cons, hax, hbx, Bool.true_or, if_true]
      simp [ih]
      omega
    · have hax' : a x = false := by
        rcases Bool.eq_false_or_eq_true (a x) with h | h
        · exact absurd h hax
        · exact h
      by_cases hbx : b x = true
      · simp only [List.filter_cons, hax', hbx, Bool.false_or]
        simp [ih]
        omega
      · have hbx' : b x = false := by
          rcases Bool.eq_false_or_eq_true (b x) with h | h
          · exact absurd h hbx
          · exact h
        simp only [List.filter_cons, hax', hbx', Bool.false_or]
        simp [ih]

theorem resolved_none_eq_or (ids : List String) (e : SEntry) :
    (resolvedParent ids e == none) = (unresolvableB ids e || rootlikeB e) := by
  cases hp : e.parentId with
  | none => simp [resolvedParent, unresolvableB, rootlikeB, hp]
  | some p =>
    by_cases h1 : p = e.id
    · simp [resolvedParent, unresolvableB, rootlikeB, hp, h1]
    · by_cases h2 : p ∈ ids
      · simp [resolvedParent, unresolvableB, rootlikeB, hp, h1, h2]
      · simp [resolvedParent, unresolvableB, rootlikeB, hp, h1, h2]

theorem unresolvable_not_rootlike (ids : List String) (e : SEntry) :
    ¬(unresolvableB ids e = true ∧ rootlikeB e = true) := by
  rintro ⟨h1, h2⟩
  cases hp : e.parentId with
  | none => simp [unresolvableB, hp] at h1
  | some p =>
    rw [unresolvableB] at h1
    rw [rootlikeB] at h2
    simp only [hp] at h1 h2
    simp at h1 h2
    exact h1.1 (by simpa using h2)

theorem root_count_split (es : List SEntry) :
    (rootEntries es).length = unresolvableCount es + rootlikeCount es := by
  rw [rootEntries, unresolvableCount, rootlikeCount,
    List.filter_congr (fun x _ => resolved_none_eq_or (allIds es) x)]
  exact filter_or_length _ _ (fun x => unresolvable_not_rootlike (allIds es) x) es

/-- **C2 (amended).** For a log whose non-header, non-label records have
pairwise-distinct ids *and only backward parent references* (every non-null,
non-self parent id that occurs at all occurs earlier in the file — the
append-only invariant; the counterexample shows the claim fails without it),
the forest returned by the linking pass has total node count exactly `N`
(the number of records), and the number of top-level roots is exactly `K`
(records with unresolvable parent ids) plus the number of records with a
null or self parent id.  The root-count half holds for any log with
distinct ids. -/
theorem tree_builder_counts (es : List SEntry) (L : List (String × String))
    (C : Option String) (hN : (allIds es).Nodup) (hB : BwdRefs es) :
    forestCount (buildForest es L C) = es.length ∧
      (buildForest es L C).length = unresolvableCount es + rootlikeCount es := by
  constructor
  · rw [buildForest, forestCount_eq_length]
    have hperm := forest_perm es L C hN hB es.length le_rfl
    have hcard := congrArg Multiset.card hperm
    simp only [Multiset.coe_card] at hcard
    rw [hcard]
    simp [allIds]
  · rw [buildForest, List.length_map]
    exact root_count_split es

def scenEntryU : SEntry :=
  ⟨"message", "u1", none, "t1", "user", MsgContent.str "hello", none⟩

def scenEntryA : SEntry :=
  ⟨"message", "a1", some "u1", "t2", "assistant",
    MsgContent.blocks [⟨"text", "hi"⟩], none⟩

theorem tree_builder_counts_witness :
    (allIds [scenEntryU, scenEntryA]).Nodup ∧ BwdRefs [scenEntryU, scenEntryA] ∧
      forestCount (buildForest [scenEntryU, scenEntryA] [] (some "a1")) = 2 ∧
      (buildForest [scenEntryU, scenEntryA] [] (some "a1")).length =
        unresolvableCount [scenEntryU, scenEntryA] +
          rootlikeCount [scenEntryU, scenEntryA] :=
  ⟨by decide, by decide,
    (tree_builder_counts [scenEntryU, scenEntryA] [] (some "a1")
      (by decide) (by decide)).1.trans (by decide),
    (tree_builder_counts [scenEntryU, scenEntryA] [] (some "a1")
      (by decide) (by decide)).2⟩

end PiWeb.Tree
